import Mathlib

/-!
Shallow embedding of the request-orchestration core of the repository
(thinktapflow-ai-core): the TTL+size cache, the sliding-window rate
limiter, the retry controller with exponential backoff, the cache-key
fingerprint, and the batch processor.  Each definition is translated
from the TypeScript source (src/utils/retry.ts, src/utils/batch.ts and
the rate-limiter module); timestamps are modelled as explicit `now`
parameters standing for `Date.now()`.
-/

set_option maxHeartbeats 1000000

/-! ## Association-list model of a JavaScript Map

A JS `Map` iterates in insertion order; `set` on an existing key keeps
the key's original position; `delete` removes the (unique) binding.  We
model it as an association list with (reachably) distinct keys. -/

def mapFind (key : String) : List (String × β) → Option β
  | [] => none
  | (k, v) :: rest => if k = key then some v else mapFind key rest

def mapSet (key : String) (val : β) : List (String × β) → List (String × β)
  | [] => [(key, val)]
  | (k, v) :: rest => if k = key then (key, val) :: rest else (k, v) :: mapSet key val rest

def mapDelete (key : String) : List (String × β) → List (String × β)
  | [] => []
  | (k, v) :: rest => if k = key then rest else (k, v) :: mapDelete key rest

def nodupKeys : List (String × β) → Bool
  | [] => true
  | (k, _) :: rest => (mapFind k rest).isNone && nodupKeys rest

namespace Cache

/-- CacheEntry from src/types: data, timestamp (ms), ttl (ms), key, size
(the length of `JSON.stringify(data)`). -/
structure Entry (T : Type) where
  data : T
  timestamp : Nat
  ttl : Nat
  key : String
  size : Nat
deriving Repr, DecidableEq

/-- The closure state of `createCache`: the `Map` of entries (insertion
order) and the mutable `currentSize` byte counter (a JS number that is
both incremented and decremented, hence `Int`). -/
structure State (T : Type) where
  entries : List (String × Entry T)
  currentSize : Int
deriving Repr, DecidableEq

def emptyState : State T := ⟨[], 0⟩

/-- isExpired: Date.now() > entry.timestamp + entry.ttl. -/
def isExpired (now : Nat) (e : Entry T) : Bool :=
  decide (e.timestamp + e.ttl < now)

/-- cleanup: removes every expired entry and subtracts its size from
currentSize (the source iterates the Map deleting as it goes, which is
equivalent to this filter). -/
def cleanup (now : Nat) (st : State T) : State T :=
  { entries := st.entries.filter (fun p => !isExpired now p.2),
    currentSize := st.currentSize -
      ((st.entries.filter (fun p => isExpired now p.2)).map (fun p => (p.2.size : Int))).sum }

/-- The head of `[...cache.entries()].sort((a, b) => a.timestamp - b.timestamp)`:
since that sort is stable and the spread lists entries in insertion
order, it is the first-inserted entry of minimal timestamp. -/
def findOldest : List (String × Entry T) → Option (String × Entry T)
  | [] => none
  | p :: rest =>
    some (rest.foldl (fun acc q => if q.2.timestamp < acc.2.timestamp then q else acc) p)

/-- evictLRU: delete the oldest-by-timestamp entry and subtract its size. -/
def evictLRU (st : State T) : State T :=
  match findOldest st.entries with
  | none => st
  | some (k, e) =>
    { entries := mapDelete k st.entries, currentSize := st.currentSize - (e.size : Int) }

/-- The `while (currentSize + size > maxSize && cache.size > 0) evictLRU()`
loop of `set`.  Each iteration of the source loop removes exactly one
entry, so running it with fuel equal to the number of entries is exact. -/
def evictLoop (maxSize : Nat) (size : Nat) : Nat → State T → State T
  | 0, st => st
  | fuel + 1, st =>
    if (maxSize : Int) < st.currentSize + (size : Int) ∧ 0 < st.entries.length then
      evictLoop maxSize size fuel (evictLRU st)
    else st

/-- get: miss on absence; an expired entry is deleted (size subtracted)
and reported absent; a hit refreshes the entry's timestamp in place and
returns its data. -/
def get (key : String) (now : Nat) (st : State T) : Option T × State T :=
  match mapFind key st.entries with
  | none => (none, st)
  | some e =>
    if isExpired now e then
      (none, { entries := mapDelete key st.entries,
               currentSize := st.currentSize - (e.size : Int) })
    else
      (some e.data, { st with entries := mapSet key { e with timestamp := now } st.entries })

/-- set: cleanup, then evict while over capacity, then insert the new
entry (replacing in place any entry under the same key) and add its
size to currentSize.  `sz data` stands for `JSON.stringify(data).length`. -/
def set (maxSize : Nat) (sz : T → Nat) (key : String) (data : T) (ttl : Nat) (now : Nat)
    (st : State T) : State T :=
  let st1 := cleanup now st
  let size := sz data
  let st2 := evictLoop maxSize size st1.entries.length st1
  { entries := mapSet key ⟨data, now, ttl, key, size⟩ st2.entries,
    currentSize := st2.currentSize + (size : Int) }

/-- del: remove the entry if present, subtracting its size. -/
def del (key : String) (st : State T) : Bool × State T :=
  match mapFind key st.entries with
  | none => (false, st)
  | some e =>
    (true, { entries := mapDelete key st.entries,
             currentSize := st.currentSize - (e.size : Int) })

/-- clear: drop everything and reset the counter. -/
def clear (_st : State T) : State T := ⟨[], 0⟩

/-- One cache operation, tagged with the `Date.now()` value at which it
runs where the source reads the clock. -/
inductive Op (T : Type) where
  | get (key : String) (now : Nat)
  | set (key : String) (data : T) (ttl : Nat) (now : Nat)
  | del (key : String)
  | clear
  | cleanup (now : Nat)

def applyOp (maxSize : Nat) (sz : T → Nat) : Op T → State T → State T
  | .get key now, st => (get key now st).2
  | .set key data ttl now, st => set maxSize sz key data ttl now st
  | .del key, st => (del key st).2
  | .clear, st => clear st
  | .cleanup now, st => cleanup now st

def runOps (maxSize : Nat) (sz : T → Nat) (ops : List (Op T)) : State T :=
  ops.foldl (fun st op => applyOp maxSize sz op st) emptyState

/-- Sum of the sizes of the live (present) entries. -/
def liveSize (st : State T) : Int :=
  (st.entries.map (fun p => (p.2.size : Int))).sum

/-- Checks, along the run, that every set targets a key not currently in
the cache and inserts an entry of size at most maxSize. -/
def freshFittingOps (maxSize : Nat) (sz : T → Nat) : State T → List (Op T) → Bool
  | _, [] => true
  | st, op :: rest =>
    (match op with
     | .set key data _ _ => (mapFind key st.entries).isNone && decide (sz data ≤ maxSize)
     | _ => true) && freshFittingOps maxSize sz (applyOp maxSize sz op st) rest

/-- The length of JSON.stringify of a string value that needs no escape
sequences: its character count plus the two surrounding quotes. -/
def strJsonLen (s : String) : Nat := s.length + 2

/-- The internal consistency the capacity claim is about: distinct keys,
an accurate byte counter, and the live bytes within capacity. -/
def Inv (maxSize : Nat) (st : State T) : Prop :=
  nodupKeys st.entries = true ∧
  st.currentSize = liveSize st ∧
  liveSize st ≤ (maxSize : Int)

/-- Runs a get at each listed time in order, threading the state, and
collects the returned values. -/
def repeatGets (key : String) : List Nat → State T → List (Option T) × State T
  | [], st => ([], st)
  | t :: ts, st =>
    let r := get key t st
    let rest := repeatGets key ts r.2
    (r.1 :: rest.1, rest.2)

/-- Times each at most ttl after the previous one (first link from t0). -/
def chainLe (ttl : Nat) : Nat → List Nat → Bool
  | _, [] => true
  | prev, t :: ts => decide (t ≤ prev + ttl) && chainLe ttl t ts

end Cache

namespace RateLimiter

/-- The closure state of `createRateLimiter`: the array of request
timestamps, appended in clock order.  Timestamps are `Int` because the
source compares them with `now - windowSizeMs`. -/
structure State where
  requests : List Int
deriving Repr, DecidableEq

/-- isAllowed: shift off every leading timestamp strictly older than
`now - windowSizeMs`, then report whether fewer than the limit remain.
Returns the admission verdict together with the mutated state. -/
def isAllowed (requestsPerMinute : Nat) (windowSizeMs : Int) (now : Int) (st : State) :
    Bool × State :=
  let windowStart := now - windowSizeMs
  let remaining := st.requests.dropWhile (fun t => decide (t < windowStart))
  (decide (remaining.length < requestsPerMinute), ⟨remaining⟩)

/-- addRequest: push Date.now(). -/
def addRequest (now : Int) (st : State) : State :=
  ⟨st.requests ++ [now]⟩

end RateLimiter

namespace Retry

/-- A thrown JavaScript error value as inspected by `isRetryableError`:
optional `code`, `statusCode` and `message` fields.  `none` models a
falsy error value (the `if (!error) return false` guard). -/
structure JsError where
  code : Option String
  statusCode : Option Int
  message : Option String
deriving Repr, DecidableEq

/-- message.includes(pat) for a pattern actually occurring as a substring
iff splitting on it yields more than one piece. -/
def strIncludes (s pat : String) : Bool :=
  decide (2 ≤ (s.splitOn pat).length)

def retryableCodes : List String :=
  ["ECONNRESET", "ENOTFOUND", "ECONNREFUSED", "ETIMEDOUT",
   "RATE_LIMITED", "SERVER_ERROR", "TIMEOUT"]

def retryableStatusCodes : List Int := [429, 500, 502, 503, 504]

/-- isRetryableError, field by field; a missing field never matches
(in JS `includes(undefined)` is false and `undefined?.includes` is
falsy). -/
def isRetryableError (error : Option JsError) : Bool :=
  match error with
  | none => false
  | some e =>
    (match e.code with
     | some c => retryableCodes.contains c
     | none => false) ||
    (match e.statusCode with
     | some c => retryableStatusCodes.contains c
     | none => false) ||
    (match e.message with
     | some m => strIncludes m "timeout" || strIncludes m "rate limit"
     | none => false)

/-- One attempt's outcome of the wrapped operation: resolve with a value
or throw an error. -/
inductive Outcome (T : Type) where
  | ok : T → Outcome T
  | err : JsError → Outcome T
deriving Repr, DecidableEq

/-- The `for (attempt = 1; attempt <= maxRetries + 1; attempt++)` loop of
`retry`, with `fuel = maxRetries + 1 - attempt` so that `fuel = 0` holds
exactly when `attempt > maxRetries`, the condition under which the catch
block re-throws even a retryable error.  `ops n` is the outcome of the
n-th invocation (1-indexed).  Returns the final outcome together with
the number of invocations performed. -/
def retryGo (ops : Nat → Outcome T) : Nat → Nat → Outcome T × Nat
  | 0, attempt =>
    match ops attempt with
    | .ok v => (.ok v, attempt)
    | .err e => (.err e, attempt)
  | fuel + 1, attempt =>
    match ops attempt with
    | .ok v => (.ok v, attempt)
    | .err e =>
      if isRetryableError (some e) then retryGo ops fuel (attempt + 1)
      else (.err e, attempt)

/-- retry: run the loop from attempt 1; the trailing `throw lastError`
after the loop is unreachable because the final attempt's catch always
re-throws. -/
def retry (maxRetries : Nat) (ops : Nat → Outcome T) : Outcome T × Nat :=
  retryGo ops maxRetries 1

/-- calculateDelay over exact rationals: `delay = base * mult^(attempt-1)`,
`jitter = rand * 0.1 * delay` with `rand` the `Math.random()` draw, and
the result clamped to `maxDelay`. -/
def calculateDelay (baseDelayMs maxDelayMs backoffMultiplier : ℚ) (attempt : Nat)
    (rand : ℚ) : ℚ :=
  let delay := baseDelayMs * backoffMultiplier ^ (attempt - 1)
  let jitter := rand * (1 / 10) * delay
  min (delay + jitter) maxDelayMs

end Retry

namespace CacheKey

/-- The serialized option map: `JSON.stringify(options, Object.keys(options).sort())`.
With an array replacer, JSON.stringify emits exactly the listed keys in
the list's (sorted) order, so for a flat option object with distinct
keys and scalar values it produces the sorted pairs between braces.  An
option is modelled as (key, serialized scalar value). -/
def serializeOptions (options : List (String × String)) : String :=
  let sorted := options.insertionSort (fun a b => a.1 ≤ b.1)
  "\x7b" ++ String.intercalate "," (sorted.map (fun p => "\"" ++ p.1 ++ "\":" ++ p.2)) ++ "\x7d"

def base64Alphabet : List Char :=
  "ABCDEFGHIJKLMNOPQRSTUVWXYZabcdefghijklmnopqrstuvwxyz0123456789+/".data

def b64Char (n : Nat) : Char := base64Alphabet.getD n 'A'

/-- Standard base64 of a byte list, 3 bytes to 4 characters with `=`
padding, as `btoa` produces on codepoints below 256. -/
def btoaBytes : List Nat → List Char
  | [] => []
  | [b1] => [b64Char (b1 / 4), b64Char (b1 % 4 * 16), '=', '=']
  | [b1, b2] => [b64Char (b1 / 4), b64Char (b1 % 4 * 16 + b2 / 16), b64Char (b2 % 16 * 4), '=']
  | b1 :: b2 :: b3 :: rest =>
    b64Char (b1 / 4) :: b64Char (b1 % 4 * 16 + b2 / 16) ::
      b64Char (b2 % 16 * 4 + b3 / 64) :: b64Char (b3 % 64) :: btoaBytes rest

def btoa (s : String) : String :=
  String.mk (btoaBytes (s.data.map Char.toNat))

/-- generateCacheKey: base64 of `provider:prompt:optionsString`, truncated
by `.slice(0, 32)` to its first 32 characters, behind an `ai:` tag. -/
def generateCacheKey (provider prompt : String) (options : List (String × String)) : String :=
  let optionsString := serializeOptions options
  let hash := String.mk ((btoa (provider ++ ":" ++ prompt ++ ":" ++ optionsString)).data.take 32)
  "ai:" ++ hash

end CacheKey

namespace Batch

inductive Status where
  | pending | processing | completed | failed
deriving Repr, DecidableEq

/-- BatchRequest: id, optional priority, opaque payload. -/
structure Request where
  id : String
  priority : Option Int
  payload : String
deriving Repr, DecidableEq

/-- BatchResponse as mutated along processing. -/
structure Response where
  id : String
  status : Status
  result : Option String
  error : Option String
  startTime : Option Nat
  endTime : Option Nat
deriving Repr, DecidableEq

/-- A downstream processor: resolves with a string or rejects with an
error message. -/
def Processor : Type := Request → Except String String

/-- What calling the `processRequest` closure actually does.  `setProcessor`
runs `Object.assign(processRequest, processor)`, which copies the
processor's own enumerable properties onto the `processRequest` function
object but does not alter its call behavior: invoking it still executes
its original body, which throws unconditionally.  The recorded injected
processor is therefore never consulted. -/
def processRequestCall (_injected : Option Processor) (_r : Request) : Except String String :=
  Except.error "processRequest function must be injected"

/-- The closure state of `createBatchProcessor`. -/
structure State where
  queue : List Request
  results : List (String × Response)
  injected : Option Processor

/-- setProcessor records the injected function; per `processRequestCall`
this leaves the behavior of the processing call unchanged. -/
def setProcessor (fn : Processor) (st : State) : State :=
  { st with injected := some fn }

/-- The body of the `batch.map` callback in processQueue for one request:
mark processing with a start time, call `processRequest`, then record
the terminal status, result or error message, and end time. -/
def processItem (injected : Option Processor) (now : Nat) (results : List (String × Response))
    (r : Request) : List (String × Response) :=
  match mapFind r.id results with
  | none => results
  | some resp =>
    let started := { resp with status := Status.processing, startTime := some now }
    match processRequestCall injected r with
    | .ok v =>
      mapSet r.id { started with status := Status.completed, result := some v,
                                 endTime := some now } results
    | .error e =>
      mapSet r.id { started with status := Status.failed, error := some e,
                                 endTime := some now } results

/-- Promise.allSettled over one batch; for distinct ids the concurrent
per-item mutations touch disjoint records, so a left fold is exact. -/
def processBatch (injected : Option Processor) (now : Nat) (batch : List Request)
    (results : List (String × Response)) : List (String × Response) :=
  batch.foldl (processItem injected now) results

/-- The drain loop: while the queue is non-empty, splice off up to
batchSize requests and process them.  For batchSize ≥ 1 each iteration
shortens the queue, so fuel equal to the queue length is exact. -/
def processQueue (batchSize : Nat) (injected : Option Processor) (now : Nat) :
    Nat → List Request → List (String × Response) → List (String × Response)
  | 0, _, results => results
  | _ + 1, [], results => results
  | fuel + 1, q@(_ :: _), results =>
    processQueue batchSize injected now fuel (q.drop batchSize)
      (processBatch injected now (q.take batchSize) results)

/-- addRequest: create the pending response record, enqueue, re-sort the
queue by descending priority (stable), and (modelled synchronously) run
the drain loop to completion, returning the final state. -/
def addRequest (batchSize : Nat) (now : Nat) (r : Request) (st : State) : State :=
  let results := mapSet r.id ⟨r.id, Status.pending, none, none, none, none⟩ st.results
  let queue := (st.queue ++ [r]).insertionSort
    (fun a b => (b.priority.getD 0) ≤ (a.priority.getD 0))
  { queue := [],
    results := processQueue batchSize st.injected now queue.length queue results,
    injected := st.injected }

end Batch


/-! ## Association-list lemmas -/

theorem mapFind_eq_none_iff (key : String) (l : List (String × β)) :
    mapFind key l = none ↔ ∀ p ∈ l, p.1 ≠ key := by
  induction l with
  | nil => simp [mapFind]
  | cons hd tl ih =>
    obtain ⟨k, v⟩ := hd
    by_cases h : k = key
    · simp [mapFind, h]
    · simp [mapFind, h, ih]

theorem mapFind_mapSet_self (key : String) (v : β) (l : List (String × β)) :
    mapFind key (mapSet key v l) = some v := by
  induction l with
  | nil => simp [mapSet, mapFind]
  | cons hd tl ih =>
    obtain ⟨k, w⟩ := hd
    by_cases h : k = key
    · simp [mapSet, h, mapFind]
    · simp [mapSet, h, mapFind, ih]

theorem mapFind_mapSet_ne (key key' : String) (v : β) (l : List (String × β))
    (h : key' ≠ key) : mapFind key' (mapSet key v l) = mapFind key' l := by
  have hne : key ≠ key' := fun hh => h hh.symm
  induction l with
  | nil => simp [mapSet, mapFind, hne]
  | cons hd tl ih =>
    obtain ⟨k, w⟩ := hd
    by_cases hk : k = key
    · subst hk
      simp [mapSet, mapFind, hne]
    · simp [mapSet, hk, mapFind, ih]

theorem mapSet_eq_append (key : String) (v : β) (l : List (String × β))
    (h : mapFind key l = none) : mapSet key v l = l ++ [(key, v)] := by
  induction l with
  | nil => simp [mapSet]
  | cons hd tl ih =>
    obtain ⟨k, w⟩ := hd
    by_cases hk : k = key
    · simp [mapFind, hk] at h
    · simp [mapFind, hk] at h
      simp [mapSet, hk, ih h]

theorem mapDelete_sublist (key : String) (l : List (String × β)) :
    List.Sublist (mapDelete key l) l := by
  induction l with
  | nil => simp [mapDelete]
  | cons hd tl ih =>
    obtain ⟨k, w⟩ := hd
    by_cases hk : k = key
    · simp only [mapDelete, if_pos hk]
      exact List.sublist_cons_self _ _
    · simp only [mapDelete, if_neg hk]
      exact ih.cons₂ _

theorem mapFind_none_of_sublist (key : String) (l l' : List (String × β))
    (hs : List.Sublist l' l) (h : mapFind key l = none) : mapFind key l' = none := by
  rw [mapFind_eq_none_iff] at h ⊢
  exact fun p hp => h p (hs.subset hp)

theorem nodupKeys_iff_pairwise (l : List (String × β)) :
    nodupKeys l = true ↔ l.Pairwise (fun a b => a.1 ≠ b.1) := by
  induction l with
  | nil => simp [nodupKeys]
  | cons hd tl ih =>
    obtain ⟨k, v⟩ := hd
    simp only [nodupKeys, Bool.and_eq_true, Option.isNone_iff_eq_none,
      List.pairwise_cons, ih, mapFind_eq_none_iff]
    constructor
    · rintro ⟨h1, h2⟩
      exact ⟨fun p hp hk => h1 p hp hk.symm, h2⟩
    · rintro ⟨h1, h2⟩
      exact ⟨fun p hp hk => h1 p hp hk.symm, h2⟩

theorem nodupKeys_sublist (l l' : List (String × β)) (hs : List.Sublist l' l)
    (h : nodupKeys l = true) : nodupKeys l' = true := by
  rw [nodupKeys_iff_pairwise] at h ⊢
  exact h.sublist hs

theorem nodupKeys_mapSet (key : String) (v : β) (l : List (String × β))
    (h : nodupKeys l = true) : nodupKeys (mapSet key v l) = true := by
  induction l with
  | nil => simp [mapSet, nodupKeys, mapFind]
  | cons hd tl ih =>
    obtain ⟨k, w⟩ := hd
    simp only [nodupKeys, Bool.and_eq_true, Option.isNone_iff_eq_none] at h
    by_cases hk : k = key
    · subst hk
      simp only [mapSet, if_pos rfl, nodupKeys, Bool.and_eq_true,
        Option.isNone_iff_eq_none]
      exact h
    · simp only [mapSet, if_neg hk, nodupKeys, Bool.and_eq_true,
        Option.isNone_iff_eq_none]
      refine ⟨?_, ih h.2⟩
      rw [mapFind_mapSet_ne _ _ _ _ hk]
      exact h.1

theorem mapFind_of_mem_nodup (key : String) (v : β) (l : List (String × β))
    (hnd : nodupKeys l = true) (hm : (key, v) ∈ l) : mapFind key l = some v := by
  induction l with
  | nil => simp at hm
  | cons hd tl ih =>
    obtain ⟨k, w⟩ := hd
    simp only [nodupKeys, Bool.and_eq_true, Option.isNone_iff_eq_none] at hnd
    rcases List.mem_cons.mp hm with h | h
    · injection h with hk hv
      subst hk
      subst hv
      simp [mapFind]
    · by_cases hk : k = key
      · subst hk
        rw [mapFind_eq_none_iff] at hnd
        exact absurd rfl (hnd.1 (k, v) h)
      · simp [mapFind, hk, ih hnd.2 h]

theorem sum_mapDelete (key : String) (e : β) (f : β → Int) (l : List (String × β))
    (hm : mapFind key l = some e) :
    ((mapDelete key l).map (fun p => f p.2)).sum = (l.map (fun p => f p.2)).sum - f e := by
  induction l with
  | nil => simp [mapFind] at hm
  | cons hd tl ih =>
    obtain ⟨k, w⟩ := hd
    by_cases hk : k = key
    · simp only [mapFind, if_pos hk, Option.some.injEq] at hm
      subst hm
      simp [mapDelete, hk]
    · simp only [mapFind, if_neg hk] at hm
      simp [mapDelete, hk, ih hm]
      ring

theorem sum_mapSet_present (key : String) (e v : β) (f : β → Int) (l : List (String × β))
    (hm : mapFind key l = some e) :
    ((mapSet key v l).map (fun p => f p.2)).sum =
      (l.map (fun p => f p.2)).sum - f e + f v := by
  induction l with
  | nil => simp [mapFind] at hm
  | cons hd tl ih =>
    obtain ⟨k, w⟩ := hd
    by_cases hk : k = key
    · simp only [mapFind, if_pos hk, Option.some.injEq] at hm
      subst hm
      simp [mapSet, hk]
      ring
    · simp only [mapFind, if_neg hk] at hm
      simp [mapSet, hk, ih hm]
      ring

theorem sizes_mapDelete (key : String) (e : Cache.Entry T) (l : List (String × Cache.Entry T))
    (hm : mapFind key l = some e) :
    ((mapDelete key l).map (fun p => (p.2.size : Int))).sum
      = (l.map (fun p => (p.2.size : Int))).sum - (e.size : Int) := by
  simpa using sum_mapDelete key e (fun b => (b.size : Int)) l hm

theorem sizes_mapSet_present (key : String) (e v : Cache.Entry T)
    (l : List (String × Cache.Entry T)) (hm : mapFind key l = some e) :
    ((mapSet key v l).map (fun p => (p.2.size : Int))).sum
      = (l.map (fun p => (p.2.size : Int))).sum - (e.size : Int) + (v.size : Int) := by
  simpa using sum_mapSet_present key e v (fun b => (b.size : Int)) l hm

theorem sum_filter_split (l : List α) (p : α → Bool) (f : α → Int) :
    ((l.filter p).map f).sum + ((l.filter (fun a => !p a)).map f).sum
      = (l.map f).sum := by
  induction l with
  | nil => simp
  | cons hd tl ih =>
    by_cases h : p hd
    · simp [List.filter_cons, h, ← ih]
      ring
    · simp only [List.filter_cons, h, Bool.false_eq_true, if_false, Bool.not_false,
        if_true, List.map_cons, List.sum_cons, List.map, ← ih]
      ring

/-! ## Cache lemmas -/

theorem mapDelete_length (key : String) (e : β) (l : List (String × β))
    (hm : mapFind key l = some e) : (mapDelete key l).length + 1 = l.length := by
  induction l with
  | nil => simp [mapFind] at hm
  | cons hd tl ih =>
    obtain ⟨k, w⟩ := hd
    by_cases hk : k = key
    · simp [mapDelete, hk]
    · simp only [mapFind, if_neg hk] at hm
      simp [mapDelete, hk, ih hm]

theorem sum_sizes_nonneg (l : List (String × Cache.Entry T)) :
    0 ≤ (l.map (fun p => (p.2.size : Int))).sum := by
  apply List.sum_nonneg
  intro x hx
  obtain ⟨p, _, rfl⟩ := List.mem_map.mp hx
  exact Int.natCast_nonneg _

theorem foldlOldest_mem (l : List (String × Cache.Entry T)) (p : String × Cache.Entry T) :
    l.foldl (fun acc q => if q.2.timestamp < acc.2.timestamp then q else acc) p = p ∨
    l.foldl (fun acc q => if q.2.timestamp < acc.2.timestamp then q else acc) p ∈ l := by
  induction l generalizing p with
  | nil => exact Or.inl rfl
  | cons hd tl ih =>
    simp only [List.foldl_cons]
    rcases ih (if hd.2.timestamp < p.2.timestamp then hd else p) with h | h
    · rw [h]
      by_cases hc : hd.2.timestamp < p.2.timestamp
      · rw [if_pos hc]
        exact Or.inr (List.mem_cons_self _ _)
      · rw [if_neg hc]
        exact Or.inl rfl
    · exact Or.inr (List.mem_cons_of_mem _ h)

theorem foldlOldest_min (l : List (String × Cache.Entry T)) (p : String × Cache.Entry T) :
    (l.foldl (fun acc q => if q.2.timestamp < acc.2.timestamp then q else acc) p).2.timestamp
        ≤ p.2.timestamp ∧
    ∀ q ∈ l,
      (l.foldl (fun acc q => if q.2.timestamp < acc.2.timestamp then q else acc) p).2.timestamp
        ≤ q.2.timestamp := by
  induction l generalizing p with
  | nil => simp
  | cons hd tl ih =>
    simp only [List.foldl_cons]
    obtain ⟨h1, h2⟩ := ih (if hd.2.timestamp < p.2.timestamp then hd else p)
    have hstep :
        (if hd.2.timestamp < p.2.timestamp then hd else p).2.timestamp ≤ p.2.timestamp ∧
        (if hd.2.timestamp < p.2.timestamp then hd else p).2.timestamp ≤ hd.2.timestamp := by
      by_cases hc : hd.2.timestamp < p.2.timestamp
      · rw [if_pos hc]
        exact ⟨Nat.le_of_lt hc, Nat.le_refl _⟩
      · rw [if_neg hc]
        exact ⟨Nat.le_refl _, Nat.le_of_not_lt hc⟩
    refine ⟨Nat.le_trans h1 hstep.1, ?_⟩
    intro q hq
    rcases List.mem_cons.mp hq with rfl | hq'
    · exact Nat.le_trans h1 hstep.2
    · exact h2 q hq'

theorem findOldest_mem (l : List (String × Cache.Entry T)) (p : String × Cache.Entry T)
    (h : Cache.findOldest l = some p) : p ∈ l := by
  cases l with
  | nil => simp [Cache.findOldest] at h
  | cons hd tl =>
    simp only [Cache.findOldest, Option.some.injEq] at h
    rcases foldlOldest_mem tl hd with h' | h'
    · rw [← h, h']
      exact List.mem_cons_self _ _
    · rw [← h]
      exact List.mem_cons_of_mem _ h'

theorem findOldest_min (l : List (String × Cache.Entry T)) (p : String × Cache.Entry T)
    (h : Cache.findOldest l = some p) :
    ∀ q ∈ l, p.2.timestamp ≤ q.2.timestamp := by
  cases l with
  | nil => simp [Cache.findOldest] at h
  | cons hd tl =>
    simp only [Cache.findOldest, Option.some.injEq] at h
    obtain ⟨h1, h2⟩ := foldlOldest_min tl hd
    intro q hq
    rcases List.mem_cons.mp hq with rfl | hq'
    · rw [← h]
      exact h1
    · rw [← h]
      exact h2 q hq'

theorem evictLRU_sublist (st : Cache.State T) :
    List.Sublist (Cache.evictLRU st).entries st.entries := by
  rcases hfo : Cache.findOldest st.entries with _ | ⟨k, e⟩
  · simp [Cache.evictLRU, hfo]
  · simp only [Cache.evictLRU, hfo]
    exact mapDelete_sublist _ _

theorem inv_cleanup (maxSize : Nat) (now : Nat) (st : Cache.State T)
    (h : Cache.Inv maxSize st) : Cache.Inv maxSize (Cache.cleanup now st) := by
  obtain ⟨hnd, hcs, hle⟩ := h
  have hsplit := sum_filter_split st.entries (fun p => Cache.isExpired now p.2)
    (fun p => (p.2.size : Int))
  have hkeep : (st.entries.filter (fun p => !Cache.isExpired now p.2)) =
      st.entries.filter (fun a => !(fun p => Cache.isExpired now p.2) a) := rfl
  have hpos := sum_sizes_nonneg (st.entries.filter (fun p => Cache.isExpired now p.2))
  refine ⟨?_, ?_, ?_⟩
  · exact nodupKeys_sublist _ _ (List.filter_sublist _) hnd
  · simp only [Cache.cleanup, Cache.liveSize] at hcs ⊢
    omega
  · simp only [Cache.cleanup, Cache.liveSize] at hle ⊢
    omega

theorem inv_evictLRU (maxSize : Nat) (st : Cache.State T)
    (h : Cache.Inv maxSize st) : Cache.Inv maxSize (Cache.evictLRU st) := by
  obtain ⟨hnd, hcs, hle⟩ := h
  rcases hfo : Cache.findOldest st.entries with _ | ⟨k, e⟩
  · simpa [Cache.evictLRU, hfo] using ⟨hnd, hcs, hle⟩
  · have hmem := findOldest_mem st.entries (k, e) hfo
    have hf : mapFind k st.entries = some e := mapFind_of_mem_nodup _ _ _ hnd hmem
    have hsum := sizes_mapDelete k e st.entries hf
    have hpos : (0 : Int) ≤ e.size := Int.natCast_nonneg _
    refine ⟨?_, ?_, ?_⟩
    · simp only [Cache.evictLRU, hfo]
      exact nodupKeys_sublist _ _ (mapDelete_sublist _ _) hnd
    · simp only [Cache.liveSize] at hcs
      simp only [Cache.evictLRU, hfo, Cache.liveSize]
      omega
    · simp only [Cache.liveSize] at hle
      simp only [Cache.evictLRU, hfo, Cache.liveSize]
      omega

theorem evictLRU_length (st : Cache.State T) (hne : st.entries ≠ [])
    (hnd : nodupKeys st.entries = true) :
    (Cache.evictLRU st).entries.length + 1 = st.entries.length := by
  have hex : ∃ p, Cache.findOldest st.entries = some p := by
    rcases hl : st.entries with _ | ⟨hd, tl⟩
    · exact absurd hl hne
    · exact ⟨_, rfl⟩
  obtain ⟨⟨k, e⟩, hfo⟩ := hex
  have hmem := findOldest_mem st.entries (k, e) hfo
  have hf : mapFind k st.entries = some e := mapFind_of_mem_nodup _ _ _ hnd hmem
  simp only [Cache.evictLRU, hfo]
  exact mapDelete_length _ _ _ hf

theorem evictLoop_sublist (maxSize size : Nat) :
    ∀ (fuel : Nat) (st : Cache.State T),
      List.Sublist (Cache.evictLoop maxSize size fuel st).entries st.entries := by
  intro fuel
  induction fuel with
  | zero => intro st; exact List.Sublist.refl _
  | succ n ih =>
    intro st
    simp only [Cache.evictLoop]
    by_cases hc : (maxSize : Int) < st.currentSize + (size : Int) ∧ 0 < st.entries.length
    · rw [if_pos hc]
      exact (ih (Cache.evictLRU st)).trans (evictLRU_sublist st)
    · rw [if_neg hc]

theorem evictLoop_spec (maxSize size : Nat) :
    ∀ (fuel : Nat) (st : Cache.State T),
      Cache.Inv maxSize st → st.entries.length ≤ fuel →
      Cache.Inv maxSize (Cache.evictLoop maxSize size fuel st) ∧
      ((Cache.evictLoop maxSize size fuel st).currentSize + (size : Int) ≤ (maxSize : Int) ∨
        (Cache.evictLoop maxSize size fuel st).entries = []) := by
  intro fuel
  induction fuel with
  | zero =>
    intro st hinv hlen
    have : st.entries = [] := List.eq_nil_of_length_eq_zero (Nat.le_zero.mp hlen)
    exact ⟨hinv, Or.inr this⟩
  | succ n ih =>
    intro st hinv hlen
    simp only [Cache.evictLoop]
    by_cases hc : (maxSize : Int) < st.currentSize + (size : Int) ∧ 0 < st.entries.length
    · rw [if_pos hc]
      have hlen' : (Cache.evictLRU st).entries.length ≤ n := by
        have := evictLRU_length st (List.length_pos.mp hc.2) hinv.1
        omega
      exact ih (Cache.evictLRU st) (inv_evictLRU maxSize st hinv) hlen'
    · rw [if_neg hc]
      refine ⟨hinv, ?_⟩
      by_cases hlt : (maxSize : Int) < st.currentSize + (size : Int)
      · refine Or.inr (List.eq_nil_of_length_eq_zero ?_)
        have := not_and.mp hc hlt
        omega
      · exact Or.inl (Int.not_lt.mp hlt)

theorem inv_set (maxSize : Nat) (sz : T → Nat) (key : String) (data : T)
    (ttl now : Nat) (st : Cache.State T) (h : Cache.Inv maxSize st)
    (hfresh : mapFind key st.entries = none) (hfit : sz data ≤ maxSize) :
    Cache.Inv maxSize (Cache.set maxSize sz key data ttl now st) := by
  have h1 := inv_cleanup maxSize now st h
  have hfresh1 : mapFind key (Cache.cleanup now st).entries = none :=
    mapFind_none_of_sublist _ _ _ (List.filter_sublist _) hfresh
  obtain ⟨h2, hpost⟩ := evictLoop_spec maxSize (sz data)
    (Cache.cleanup now st).entries.length (Cache.cleanup now st) h1 (Nat.le_refl _)
  have hfresh2 : mapFind key
      (Cache.evictLoop maxSize (sz data) (Cache.cleanup now st).entries.length
        (Cache.cleanup now st)).entries = none :=
    mapFind_none_of_sublist _ _ _ (evictLoop_sublist _ _ _ _) hfresh1
  obtain ⟨hnd2, hcs2, hle2⟩ := h2
  have happ := mapSet_eq_append key
    (⟨data, now, ttl, key, sz data⟩ : Cache.Entry T) _ hfresh2
  refine ⟨?_, ?_, ?_⟩
  · simp only [Cache.set]
    exact nodupKeys_mapSet _ _ _ hnd2
  · simp only [Cache.set, Cache.liveSize, happ, List.map_append, List.sum_append]
    simp only [Cache.liveSize] at hcs2
    simp [hcs2]
  · simp only [Cache.set, Cache.liveSize, happ, List.map_append, List.sum_append]
    rcases hpost with hp | hp
    · simp only [Cache.liveSize] at hcs2
      simp only [List.map, List.sum_cons, List.sum_nil]
      omega
    · simp only [hp, Cache.liveSize] at hcs2 ⊢
      simp only [List.map, List.sum_cons, List.sum_nil, List.map_nil]
      have : (sz data : Int) ≤ (maxSize : Int) := Int.ofNat_le.mpr hfit
      omega

theorem inv_get (maxSize : Nat) (key : String) (now : Nat) (st : Cache.State T)
    (h : Cache.Inv maxSize st) : Cache.Inv maxSize (Cache.get key now st).2 := by
  obtain ⟨hnd, hcs, hle⟩ := h
  rcases hf : mapFind key st.entries with _ | e
  · simpa [Cache.get, hf] using ⟨hnd, hcs, hle⟩
  · by_cases hexp : Cache.isExpired now e
    · have hsum := sizes_mapDelete key e st.entries hf
      have hpos : (0 : Int) ≤ e.size := Int.natCast_nonneg _
      refine ⟨?_, ?_, ?_⟩
      · simp only [Cache.get, hf, hexp, if_true]
        exact nodupKeys_sublist _ _ (mapDelete_sublist _ _) hnd
      · simp only [Cache.liveSize] at hcs
        simp only [Cache.get, hf, hexp, if_true, Cache.liveSize]
        omega
      · simp only [Cache.liveSize] at hle
        simp only [Cache.get, hf, hexp, if_true, Cache.liveSize]
        omega
    · have hsum := sizes_mapSet_present key e { e with timestamp := now } st.entries hf
      refine ⟨?_, ?_, ?_⟩
      · simp only [Cache.get, hf, hexp, if_false, Bool.false_eq_true]
        exact nodupKeys_mapSet _ _ _ hnd
      · simp only [Cache.liveSize] at hcs
        simp only [Cache.get, hf, hexp, if_false, Bool.false_eq_true, Cache.liveSize]
        simp only [Cache.Entry.size] at hsum ⊢
        omega
      · simp only [Cache.liveSize] at hle
        simp only [Cache.get, hf, hexp, if_false, Bool.false_eq_true, Cache.liveSize]
        simp only [Cache.Entry.size] at hsum ⊢
        omega

theorem inv_del (maxSize : Nat) (key : String) (st : Cache.State T)
    (h : Cache.Inv maxSize st) : Cache.Inv maxSize (Cache.del key st).2 := by
  obtain ⟨hnd, hcs, hle⟩ := h
  rcases hf : mapFind key st.entries with _ | e
  · simpa [Cache.del, hf] using ⟨hnd, hcs, hle⟩
  · have hsum := sizes_mapDelete key e st.entries hf
    have hpos : (0 : Int) ≤ e.size := Int.natCast_nonneg _
    refine ⟨?_, ?_, ?_⟩
    · simp only [Cache.del, hf]
      exact nodupKeys_sublist _ _ (mapDelete_sublist _ _) hnd
    · simp only [Cache.liveSize] at hcs
      simp only [Cache.del, hf, Cache.liveSize]
      omega
    · simp only [Cache.liveSize] at hle
      simp only [Cache.del, hf, Cache.liveSize]
      omega

theorem inv_applyOp (maxSize : Nat) (sz : T → Nat) (op : Cache.Op T) (st : Cache.State T)
    (h : Cache.Inv maxSize st)
    (hok : (match op with
            | .set key data _ _ => (mapFind key st.entries).isNone && decide (sz data ≤ maxSize)
            | _ => true) = true) :
    Cache.Inv maxSize (Cache.applyOp maxSize sz op st) := by
  cases op with
  | get key now => exact inv_get maxSize key now st h
  | set key data ttl now =>
    simp only [Bool.and_eq_true, Option.isNone_iff_eq_none, decide_eq_true_eq] at hok
    exact inv_set maxSize sz key data ttl now st h hok.1 hok.2
  | del key => exact inv_del maxSize key st h
  | clear =>
    refine ⟨rfl, ?_, ?_⟩ <;> simp [Cache.applyOp, Cache.clear, Cache.liveSize]
  | cleanup now => exact inv_cleanup maxSize now st h

theorem inv_runOpsAux (maxSize : Nat) (sz : T → Nat) :
    ∀ (ops : List (Cache.Op T)) (st : Cache.State T),
      Cache.Inv maxSize st → Cache.freshFittingOps maxSize sz st ops = true →
      Cache.Inv maxSize (ops.foldl (fun st op => Cache.applyOp maxSize sz op st) st) := by
  intro ops
  induction ops with
  | nil => intro st h _; exact h
  | cons op rest ih =>
    intro st h hok
    simp only [Cache.freshFittingOps, Bool.and_eq_true] at hok
    exact ih (Cache.applyOp maxSize sz op st) (inv_applyOp maxSize sz op st h hok.1) hok.2

theorem mapFind_mapDelete_self (key : String) (l : List (String × β))
    (hnd : nodupKeys l = true) : mapFind key (mapDelete key l) = none := by
  induction l with
  | nil => simp [mapDelete, mapFind]
  | cons hd tl ih =>
    obtain ⟨k, w⟩ := hd
    simp only [nodupKeys, Bool.and_eq_true, Option.isNone_iff_eq_none] at hnd
    by_cases hk : k = key
    · subst hk
      simp only [mapDelete, if_pos rfl]
      exact hnd.1
    · simp only [mapDelete, if_neg hk, mapFind, if_neg hk]
      exact ih hnd.2

theorem nodupKeys_set (maxSize : Nat) (sz : T → Nat) (key : String) (data : T)
    (ttl now : Nat) (st : Cache.State T) (hnd : nodupKeys st.entries = true) :
    nodupKeys (Cache.set maxSize sz key data ttl now st).entries = true := by
  simp only [Cache.set]
  exact nodupKeys_mapSet _ _ _
    (nodupKeys_sublist _ _ (evictLoop_sublist _ _ _ _)
      (nodupKeys_sublist _ _ (List.filter_sublist _) hnd))

theorem repeatGets_all_hits (k : String) (v : T) (ttl : Nat) :
    ∀ (times : List Nat) (st : Cache.State T) (e : Cache.Entry T),
      nodupKeys st.entries = true →
      mapFind k st.entries = some e →
      e.data = v → e.ttl = ttl →
      Cache.chainLe ttl e.timestamp times = true →
      (Cache.repeatGets k times st).1 = times.map (fun _ => some v) := by
  intro times
  induction times with
  | nil => intros; rfl
  | cons t ts ih =>
    intro st e hnd hf hdata httl hchain
    simp only [Cache.chainLe, Bool.and_eq_true, decide_eq_true_eq] at hchain
    have hexp : Cache.isExpired t e = false := by
      simp only [Cache.isExpired, decide_eq_false_iff_not, Nat.not_lt]
      omega
    simp only [Cache.repeatGets, Cache.get, hf, hexp, Bool.false_eq_true, if_false,
      List.map_cons, hdata]
    refine congrArg (fun l => some v :: l) ?_
    exact ih _ ⟨v, t, e.ttl, e.key, e.size⟩ (nodupKeys_mapSet _ _ _ hnd)
      (mapFind_mapSet_self _ _ _) rfl httl hchain.2

/-- C3 (counterexample): the claimed invariant fails on two concrete runs
from the empty cache: inserting a 12-byte value into a cache with
maxSize 5 leaves the live size above maxSize (the eviction loop stops
once the cache is empty and inserts anyway), and setting the same key
twice leaves currentSize at 8 while the live entries sum to 4 (set adds
the new size without subtracting the overwritten entry's). -/
theorem cache_capacity_invariant_cex :
    Cache.liveSize (Cache.runOps 5 Cache.strJsonLen
      [Cache.Op.set "a" "0123456789" 100 0]) > (5 : Int) ∧
    (Cache.runOps 1000 Cache.strJsonLen
      [Cache.Op.set "a" "xx" 100 0, Cache.Op.set "a" "yy" 100 1]).currentSize ≠
      Cache.liveSize (Cache.runOps 1000 Cache.strJsonLen
        [Cache.Op.set "a" "xx" 100 0, Cache.Op.set "a" "yy" 100 1]) := by
  decide

/-- C3 (amended): after every sequence of cache operations starting from
the empty cache in which each set targets a key not currently present
and inserts a value of serialized size at most maxSize, the counter
currentSize equals the sum of the live entries' sizes and that sum is at
most maxSize. -/
theorem cache_capacity_invariant_amended :
    ∀ (T : Type) (maxSize : Nat) (sz : T → Nat) (ops : List (Cache.Op T)),
      Cache.freshFittingOps maxSize sz Cache.emptyState ops = true →
      (Cache.runOps maxSize sz ops).currentSize
          = Cache.liveSize (Cache.runOps maxSize sz ops) ∧
      Cache.liveSize (Cache.runOps maxSize sz ops) ≤ (maxSize : Int) := by
  intro T maxSize sz ops hok
  have h0 : Cache.Inv maxSize (Cache.emptyState (T := T)) := by
    refine ⟨rfl, ?_, ?_⟩
    · simp [Cache.emptyState, Cache.liveSize]
    · simp only [Cache.emptyState, Cache.liveSize, List.map_nil, List.sum_nil]
      exact Int.natCast_nonneg _
  have h := inv_runOpsAux maxSize sz ops Cache.emptyState h0 hok
  exact ⟨h.2.1, h.2.2⟩

/-- C3 (witness): a concrete fresh-keyed, fitting run through set, get
and del on a cache with maxSize 100. -/
theorem cache_capacity_invariant_witness :
    Cache.freshFittingOps 100 Cache.strJsonLen Cache.emptyState
      [Cache.Op.set "a" "xx" 100 0, Cache.Op.get "a" 5, Cache.Op.set "b" "yy" 100 6,
       Cache.Op.del "a"] = true ∧
    ((Cache.runOps 100 Cache.strJsonLen
      [Cache.Op.set "a" "xx" 100 0, Cache.Op.get "a" 5, Cache.Op.set "b" "yy" 100 6,
       Cache.Op.del "a"]).currentSize
        = Cache.liveSize (Cache.runOps 100 Cache.strJsonLen
            [Cache.Op.set "a" "xx" 100 0, Cache.Op.get "a" 5, Cache.Op.set "b" "yy" 100 6,
             Cache.Op.del "a"]) ∧
     Cache.liveSize (Cache.runOps 100 Cache.strJsonLen
       [Cache.Op.set "a" "xx" 100 0, Cache.Op.get "a" 5, Cache.Op.set "b" "yy" 100 6,
        Cache.Op.del "a"]) ≤ (100 : Int)) :=
  ⟨by decide,
   cache_capacity_invariant_amended String 100 Cache.strJsonLen
     [Cache.Op.set "a" "xx" 100 0, Cache.Op.get "a" 5, Cache.Op.set "b" "yy" 100 6,
      Cache.Op.del "a"] (by decide)⟩

/-- C6 (confirmed): evictLRU removes an entry of globally minimal
last-access timestamp (the first-inserted one among ties), and in the
concrete scenario, three sequential 40-byte inserts into a maxSize-100
cache leave entry 1 evicted and entries 2 and 3 retrievable. -/
theorem cache_lru_eviction_order :
    (∀ (T : Type) (st : Cache.State T) (k : String) (e : Cache.Entry T),
        Cache.findOldest st.entries = some (k, e) →
        (k, e) ∈ st.entries ∧ ∀ q ∈ st.entries, e.timestamp ≤ q.2.timestamp) ∧
    (mapFind "k1" (Cache.runOps 100 Cache.strJsonLen
        [Cache.Op.set "k1" "aaaaaaaaaaaaaaaaaaaaaaaaaaaaaaaaaaaaaa" 1000000 0,
         Cache.Op.set "k2" "bbbbbbbbbbbbbbbbbbbbbbbbbbbbbbbbbbbbbb" 1000000 1,
         Cache.Op.set "k3" "cccccccccccccccccccccccccccccccccccccc" 1000000 2]).entries
       = none ∧
     (Cache.get "k2" 3 (Cache.runOps 100 Cache.strJsonLen
        [Cache.Op.set "k1" "aaaaaaaaaaaaaaaaaaaaaaaaaaaaaaaaaaaaaa" 1000000 0,
         Cache.Op.set "k2" "bbbbbbbbbbbbbbbbbbbbbbbbbbbbbbbbbbbbbb" 1000000 1,
         Cache.Op.set "k3" "cccccccccccccccccccccccccccccccccccccc" 1000000 2])).1
       = some "bbbbbbbbbbbbbbbbbbbbbbbbbbbbbbbbbbbbbb" ∧
     (Cache.get "k3" 3 (Cache.runOps 100 Cache.strJsonLen
        [Cache.Op.set "k1" "aaaaaaaaaaaaaaaaaaaaaaaaaaaaaaaaaaaaaa" 1000000 0,
         Cache.Op.set "k2" "bbbbbbbbbbbbbbbbbbbbbbbbbbbbbbbbbbbbbb" 1000000 1,
         Cache.Op.set "k3" "cccccccccccccccccccccccccccccccccccccc" 1000000 2])).1
       = some "cccccccccccccccccccccccccccccccccccccc") := by
  constructor
  · intro T st k e h
    exact ⟨findOldest_mem st.entries (k, e) h, findOldest_min st.entries (k, e) h⟩
  · refine ⟨by decide, by decide, by decide⟩

/-- C6 (witness): the minimality statement applied to a concrete
one-entry cache state. -/
theorem cache_lru_eviction_order_witness :
    ("a", (⟨0, 5, 7, "a", 1⟩ : Cache.Entry Nat))
        ∈ [("a", (⟨0, 5, 7, "a", 1⟩ : Cache.Entry Nat))] ∧
    ∀ q ∈ [("a", (⟨0, 5, 7, "a", 1⟩ : Cache.Entry Nat))],
      (5 : Nat) ≤ q.2.timestamp :=
  cache_lru_eviction_order.1 Nat ⟨[("a", ⟨0, 5, 7, "a", 1⟩)], 1⟩ "a" ⟨0, 5, 7, "a", 1⟩ rfl

/-- C7 (counterexample): with maxSize 10, set "k" then set "j" at the
same instant; the second insertion is an intervening operation not on
"k" yet it evicts "k", so get "k" before its ttl has elapsed returns
absent instead of the stored value, refuting the claim as stated. -/
theorem cache_ttl_roundtrip_cex :
    (Cache.get "k" 0 (Cache.runOps 10 Cache.strJsonLen
      [Cache.Op.set "k" "abcdef" 100 0, Cache.Op.set "j" "uvwxyz" 100 0])).1
        ≠ some "abcdef" ∧
    (Cache.get "k" 0 (Cache.runOps 10 Cache.strJsonLen
      [Cache.Op.set "k" "abcdef" 100 0, Cache.Op.set "j" "uvwxyz" 100 0])).1 = none := by
  decide

/-- C7 (amended): with no intervening operation at all between the set
and the get, a get before the ttl has elapsed returns the stored value,
and a get after the ttl has elapsed returns absent and removes the
entry. -/
theorem cache_ttl_roundtrip :
    ∀ (T : Type) (maxSize : Nat) (sz : T → Nat) (st : Cache.State T) (k : String)
      (v : T) (ttl t0 t1 t2 : Nat),
      nodupKeys st.entries = true →
      (t1 < t0 + ttl →
        (Cache.get k t1 (Cache.set maxSize sz k v ttl t0 st)).1 = some v) ∧
      (t0 + ttl < t2 →
        (Cache.get k t2 (Cache.set maxSize sz k v ttl t0 st)).1 = none ∧
        mapFind k (Cache.get k t2 (Cache.set maxSize sz k v ttl t0 st)).2.entries = none) := by
  intro T maxSize sz st k v ttl t0 t1 t2 hnd
  have hfindSet : mapFind k (Cache.set maxSize sz k v ttl t0 st).entries
      = some ⟨v, t0, ttl, k, sz v⟩ := by
    simp only [Cache.set]
    exact mapFind_mapSet_self _ _ _
  constructor
  · intro h1
    have hexp : Cache.isExpired t1 (⟨v, t0, ttl, k, sz v⟩ : Cache.Entry T) = false := by
      simp only [Cache.isExpired, decide_eq_false_iff_not, Nat.not_lt]
      omega
    simp only [Cache.get, hfindSet, hexp, Bool.false_eq_true, if_false]
  · intro h2
    have hexp : Cache.isExpired t2 (⟨v, t0, ttl, k, sz v⟩ : Cache.Entry T) = true := by
      simp only [Cache.isExpired, decide_eq_true_eq]
      omega
    have hnd' : nodupKeys (Cache.set maxSize sz k v ttl t0 st).entries = true :=
      nodupKeys_set maxSize sz k v ttl t0 st hnd
    constructor
    · simp only [Cache.get, hfindSet, hexp, if_true]
    · simp only [Cache.get, hfindSet, hexp, if_true]
      exact mapFind_mapDelete_self _ _ hnd'

/-- C7 (witness): a concrete set/get round trip with ttl 10 on the empty
cache, read at times 5 and 11. -/
theorem cache_ttl_roundtrip_witness :
    (Cache.get "k" 5 (Cache.set 100 Cache.strJsonLen "k" "val" 10 0 Cache.emptyState)).1
        = some "val" ∧
    (Cache.get "k" 11 (Cache.set 100 Cache.strJsonLen "k" "val" 10 0 Cache.emptyState)).1
        = none ∧
    mapFind "k"
      (Cache.get "k" 11 (Cache.set 100 Cache.strJsonLen "k" "val" 10 0
        Cache.emptyState)).2.entries = none := by
  refine ⟨?_, ?_, ?_⟩
  · exact (cache_ttl_roundtrip String 100 Cache.strJsonLen Cache.emptyState
      "k" "val" 10 0 5 11 rfl).1 (by decide)
  · exact ((cache_ttl_roundtrip String 100 Cache.strJsonLen Cache.emptyState
      "k" "val" 10 0 5 11 rfl).2 (by decide)).1
  · exact ((cache_ttl_roundtrip String 100 Cache.strJsonLen Cache.emptyState
      "k" "val" 10 0 5 11 rfl).2 (by decide)).2

/-- C10 (confirmed): a hit rewrites the entry's only timestamp, which the
expiry check measures against, so any sequence of gets in which each
read happens within ttl of the previous timestamp keeps hitting,
including reads past the original insertion time plus ttl. -/
theorem cache_hit_extends_lifetime :
    ∀ (T : Type) (maxSize : Nat) (sz : T → Nat) (st : Cache.State T) (k : String)
      (v : T) (ttl t0 : Nat) (times : List Nat),
      nodupKeys st.entries = true →
      Cache.chainLe ttl t0 times = true →
      (Cache.repeatGets k times (Cache.set maxSize sz k v ttl t0 st)).1 =
        times.map (fun _ => some v) := by
  intro T maxSize sz st k v ttl t0 times hnd hchain
  refine repeatGets_all_hits k v ttl times _ ⟨v, t0, ttl, k, sz v⟩ ?_ ?_ rfl rfl hchain
  · exact nodupKeys_set maxSize sz k v ttl t0 st hnd
  · simp only [Cache.set]
    exact mapFind_mapSet_self _ _ _

/-- C10 (witness): insert at time 0 with ttl 10, then read at times 9 and
18; the second read lies beyond the original expiry time 10 yet still
hits because the first read refreshed the timestamp. -/
theorem cache_hit_extends_lifetime_witness :
    (0 + 10 < 18) ∧
    (Cache.repeatGets "a" [9, 18]
      (Cache.set 100 Cache.strJsonLen "a" "x" 10 0 Cache.emptyState)).1
        = [some "x", some "x"] :=
  ⟨by decide,
   cache_hit_extends_lifetime String 100 Cache.strJsonLen Cache.emptyState
     "a" "x" 10 0 [9, 18] rfl (by decide)⟩

/-- C5 (confirmed): with all recorded timestamps inside the trailing
window, N = limit recorded calls make isAllowed false; once the oldest
recorded timestamp is strictly older than now - window it is purged and
admission resumes; concretely, two requests at time 0 with limit 2 and
window 1000 deny at time 0 and admit once more than 1000 ms have
elapsed. -/
theorem rate_limiter_sliding_window :
    (∀ (limit : Nat) (W now : Int) (ts : List Int),
        (∀ t ∈ ts, now - W ≤ t) → ts.length = limit →
        (RateLimiter.isAllowed limit W now ⟨ts⟩).1 = false) ∧
    (∀ (limit : Nat) (W now t : Int) (rest : List Int),
        t < now - W → rest.length + 1 ≤ limit →
        (RateLimiter.isAllowed limit W now ⟨t :: rest⟩).1 = true) ∧
    ((RateLimiter.isAllowed 2 1000 0
        (RateLimiter.addRequest 0 (RateLimiter.addRequest 0 ⟨[]⟩))).1 = false ∧
     (RateLimiter.isAllowed 2 1000 1001
        (RateLimiter.addRequest 0 (RateLimiter.addRequest 0 ⟨[]⟩))).1 = true) := by
  refine ⟨?_, ?_, by decide, by decide⟩
  · intro limit W now ts hin hlen
    simp only [RateLimiter.isAllowed]
    have hdw : ts.dropWhile (fun t => decide (t < now - W)) = ts := by
      cases ts with
      | nil => rfl
      | cons a l =>
        refine List.dropWhile_cons_of_neg ?_
        simp only [decide_eq_true_eq, Int.not_lt]
        exact hin a (List.mem_cons_self _ _)
    rw [hdw, hlen]
    simp [Nat.lt_irrefl]
  · intro limit W now t rest ht hlen
    simp only [RateLimiter.isAllowed]
    rw [List.dropWhile_cons_of_pos (by simpa using ht)]
    have hle := (List.dropWhile_sublist
      (fun t => decide (t < now - W)) (l := rest)).length_le
    simp only [decide_eq_true_eq]
    omega

/-- C5 (witness): both quantified parts instantiated: two in-window
timestamps deny with limit 2; with the oldest timestamp outside the
window, admission resumes. -/
theorem rate_limiter_sliding_window_witness :
    (RateLimiter.isAllowed 2 1000 500 ⟨[0, 400]⟩).1 = false ∧
    (RateLimiter.isAllowed 2 1000 1401 ⟨[400, 1000]⟩).1 = true :=
  ⟨rate_limiter_sliding_window.1 2 1000 500 [0, 400] (by decide) rfl,
   rate_limiter_sliding_window.2.1 2 1000 1401 400 [1000] (by decide) (by decide)⟩

theorem retryGo_all_retryable {T : Type} (e : Nat → Retry.JsError)
    (ops : Nat → Retry.Outcome T)
    (hop : ∀ n, ops n = Retry.Outcome.err (e n))
    (hr : ∀ n, Retry.isRetryableError (some (e n)) = true) :
    ∀ (fuel a : Nat), Retry.retryGo ops fuel a = (Retry.Outcome.err (e (a + fuel)), a + fuel) := by
  intro fuel
  induction fuel with
  | zero =>
    intro a
    simp [Retry.retryGo, hop a]
  | succ n ih =>
    intro a
    simp only [Retry.retryGo, hop a, hr a, if_true]
    rw [ih (a + 1)]
    have harith : a + 1 + n = a + (n + 1) := by omega
    rw [harith]

/-- C4 (confirmed): an operation whose first attempt throws a
non-retryable error is invoked exactly once and that error is re-raised;
an operation that always throws retryable errors is invoked exactly
maxRetries + 1 times and the last error is re-raised; with maxRetries 2
and a constant statusCode-503 error, exactly 3 invocations occur and the
503 error reaches the caller. -/
theorem retry_attempt_counts :
    (∀ (T : Type) (maxRetries : Nat) (ops : Nat → Retry.Outcome T) (e : Retry.JsError),
        ops 1 = Retry.Outcome.err e → Retry.isRetryableError (some e) = false →
        Retry.retry maxRetries ops = (Retry.Outcome.err e, 1)) ∧
    (∀ (T : Type) (maxRetries : Nat) (ops : Nat → Retry.Outcome T) (e : Nat → Retry.JsError),
        (∀ n, ops n = Retry.Outcome.err (e n)) →
        (∀ n, Retry.isRetryableError (some (e n)) = true) →
        Retry.retry maxRetries ops
          = (Retry.Outcome.err (e (maxRetries + 1)), maxRetries + 1)) ∧
    (Retry.retry 2 (fun _ => Retry.Outcome.err (⟨none, some 503, none⟩ : Retry.JsError))
        (T := Unit)
      = (Retry.Outcome.err (⟨none, some 503, none⟩ : Retry.JsError), 3)) := by
  refine ⟨?_, ?_, by decide⟩
  · intro T maxRetries ops e h1 hfatal
    cases maxRetries with
    | zero => simp [Retry.retry, Retry.retryGo, h1]
    | succ n => simp [Retry.retry, Retry.retryGo, h1, hfatal]
  · intro T maxRetries ops e hop hr
    have := retryGo_all_retryable e ops hop hr maxRetries 1
    simp only [Retry.retry, this]
    have harith : 1 + maxRetries = maxRetries + 1 := by omega
    rw [harith]

/-- C4 (witness): a constant unclassified error is raised after one
invocation; a constant statusCode-500 error with maxRetries 1 is raised
after two invocations. -/
theorem retry_attempt_counts_witness :
    (Retry.retry 5 (fun _ => Retry.Outcome.err (⟨some "OTHER", none, none⟩ : Retry.JsError))
        (T := Unit)
      = (Retry.Outcome.err (⟨some "OTHER", none, none⟩ : Retry.JsError), 1)) ∧
    (Retry.retry 1 (fun _ => Retry.Outcome.err (⟨none, some 500, none⟩ : Retry.JsError))
        (T := Unit)
      = (Retry.Outcome.err (⟨none, some 500, none⟩ : Retry.JsError), 2)) :=
  ⟨retry_attempt_counts.1 Unit 5 _ ⟨some "OTHER", none, none⟩ rfl (by decide),
   retry_attempt_counts.2.1 Unit 1 _ (fun _ => ⟨none, some 500, none⟩)
     (fun _ => rfl)
     (fun _ => (by decide :
       Retry.isRetryableError (some (⟨none, some 500, none⟩ : Retry.JsError)) = true))⟩

/-- C8 (confirmed): for every jitter value j in the claimed interval
there is a Math.random draw for which calculateDelay equals
min(base * mult^(n-1) + j, maxDelay); with zero jitter the delays are
non-decreasing in the attempt number (multiplier at least 1), and every
computed delay is at most maxDelay. -/
theorem backoff_delay_formula :
    (∀ (base maxD mult j : ℚ) (n : Nat),
        0 < base → 0 < mult → 0 ≤ j → j ≤ 1 / 10 * (base * mult ^ (n - 1)) →
        ∃ rand : ℚ, 0 ≤ rand ∧ rand ≤ 1 ∧
          Retry.calculateDelay base maxD mult n rand
            = min (base * mult ^ (n - 1) + j) maxD) ∧
    (∀ (base maxD mult : ℚ) (m n : Nat),
        0 ≤ base → 1 ≤ mult → m ≤ n →
        Retry.calculateDelay base maxD mult m 0
          ≤ Retry.calculateDelay base maxD mult n 0) ∧
    (∀ (base maxD mult rand : ℚ) (n : Nat),
        Retry.calculateDelay base maxD mult n rand ≤ maxD) := by
  refine ⟨?_, ?_, ?_⟩
  · intro base maxD mult j n hb hm hj0 hj1
    have hdpos : (0 : ℚ) < base * mult ^ (n - 1) := mul_pos hb (pow_pos hm _)
    have hden : (0 : ℚ) < 1 / 10 * (base * mult ^ (n - 1)) := by positivity
    refine ⟨j / (1 / 10 * (base * mult ^ (n - 1))), div_nonneg hj0 (le_of_lt hden), ?_, ?_⟩
    · rw [div_le_one hden]
      exact hj1
    · simp only [Retry.calculateDelay]
      have hj : j / (1 / 10 * (base * mult ^ (n - 1))) * (1 / 10) * (base * mult ^ (n - 1))
          = j := by
        field_simp
        ring
      rw [hj]
  · intro base maxD mult m n hb hm hmn
    simp only [Retry.calculateDelay, zero_mul, add_zero]
    exact min_le_min
      (mul_le_mul_of_nonneg_left (pow_le_pow_right₀ hm (Nat.sub_le_sub_right hmn 1)) hb)
      le_rfl
  · intro base maxD mult rand n
    simp only [Retry.calculateDelay]
    exact min_le_right _ _

/-- C8 (witness): instantiated at the default parameters base 1000,
multiplier 2, maxDelay 30000. -/
theorem backoff_delay_formula_witness :
    (∃ rand : ℚ, 0 ≤ rand ∧ rand ≤ 1 ∧
        Retry.calculateDelay 1000 30000 2 1 rand
          = min (1000 * 2 ^ (1 - 1) + 100) 30000) ∧
    Retry.calculateDelay 1000 30000 2 1 0 ≤ Retry.calculateDelay 1000 30000 2 3 0 ∧
    Retry.calculateDelay 1000 30000 2 4 0 ≤ 30000 :=
  ⟨backoff_delay_formula.1 1000 30000 2 100 1 (by norm_num) (by norm_num) (by norm_num)
     (by norm_num),
   backoff_delay_formula.2.1 1000 30000 2 1 3 (by norm_num) (by norm_num) (by norm_num),
   backoff_delay_formula.2.2 1000 30000 2 0 4⟩

theorem sortPairs_eq_of_perm (o1 o2 : List (String × String))
    (hp : o1.Perm o2) (hnd : (o1.map Prod.fst).Nodup) :
    o1.insertionSort (fun a b => a.1 ≤ b.1) = o2.insertionSort (fun a b => a.1 ≤ b.1) := by
  haveI hTot : IsTotal (String × String) (fun a b => a.1 ≤ b.1) :=
    ⟨fun a b => le_total a.1 b.1⟩
  haveI hTrans : IsTrans (String × String) (fun a b => a.1 ≤ b.1) :=
    ⟨fun a b c hab hbc => le_trans hab hbc⟩
  haveI hAnti : IsAntisymm (String × String) (fun a b => a.1 < b.1) :=
    ⟨fun a b h1 h2 => absurd h2 (lt_asymm h1)⟩
  have hsymm : ∀ {x y : String × String}, x.1 ≠ y.1 → y.1 ≠ x.1 :=
    fun hab e => hab e.symm
  have hs1 := List.sorted_insertionSort (fun a b : String × String => a.1 ≤ b.1) o1
  have hs2 := List.sorted_insertionSort (fun a b : String × String => a.1 ≤ b.1) o2
  have hp1 := List.perm_insertionSort (fun a b : String × String => a.1 ≤ b.1) o1
  have hp2 := List.perm_insertionSort (fun a b : String × String => a.1 ≤ b.1) o2
  have hperm : (o1.insertionSort (fun a b => a.1 ≤ b.1)).Perm
      (o2.insertionSort (fun a b => a.1 ≤ b.1)) :=
    (hp1.trans hp).trans hp2.symm
  have hne0 : o1.Pairwise (fun a b => a.1 ≠ b.1) := List.pairwise_map.mp hnd
  have hne1 : (o1.insertionSort (fun a b => a.1 ≤ b.1)).Pairwise (fun a b => a.1 ≠ b.1) :=
    (hp1.pairwise_iff hsymm).mpr hne0
  have hne2 : (o2.insertionSort (fun a b => a.1 ≤ b.1)).Pairwise (fun a b => a.1 ≠ b.1) :=
    (hperm.pairwise_iff hsymm).mp hne1
  have hlt1 : (o1.insertionSort (fun a b => a.1 ≤ b.1)).Pairwise (fun a b => a.1 < b.1) :=
    (hs1.and hne1).imp (fun h => lt_of_le_of_ne h.1 h.2)
  have hlt2 : (o2.insertionSort (fun a b => a.1 ≤ b.1)).Pairwise (fun a b => a.1 < b.1) :=
    (hs2.and hne2).imp (fun h => lt_of_le_of_ne h.1 h.2)
  exact List.eq_of_perm_of_sorted hperm hlt1 hlt2

/-- C2 (counterexample): the key keeps only the first 32 base64
characters, i.e. the first 24 bytes of provider:prompt:options; with a
24-character provider the two option maps differing in the value at key
a receive identical keys. -/
theorem generateCacheKey_collision_cex :
    ("1" : String) ≠ "2" ∧
    CacheKey.generateCacheKey "pppppppppppppppppppppppp" "" [("a", "1")]
      = CacheKey.generateCacheKey "pppppppppppppppppppppppp" "" [("a", "2")] := by
  constructor
  · decide
  · rfl

/-- C2 (amended): generateCacheKey is stable, giving the same key when
the options are supplied in any key order, but it is not collision-free:
the base64 fingerprint truncated to 32 characters depends only on the
first 24 bytes of provider:prompt:options, so differing option values
can share a key. -/
theorem generateCacheKey_stable :
    ∀ (provider prompt : String) (o1 o2 : List (String × String)),
      o1.Perm o2 → (o1.map Prod.fst).Nodup →
      CacheKey.generateCacheKey provider prompt o1
        = CacheKey.generateCacheKey provider prompt o2 := by
  intro provider prompt o1 o2 hp hnd
  simp only [CacheKey.generateCacheKey, CacheKey.serializeOptions,
    sortPairs_eq_of_perm o1 o2 hp hnd]

/-- C2 (witness): the same two options supplied in both orders produce
the same key. -/
theorem generateCacheKey_stable_witness :
    CacheKey.generateCacheKey "g" "p" [("b", "2"), ("a", "1")]
      = CacheKey.generateCacheKey "g" "p" [("a", "1"), ("b", "2")] :=
  generateCacheKey_stable "g" "p" [("b", "2"), ("a", "1")] [("a", "1"), ("b", "2")]
    (by decide) (by decide)

/-- C1 (code bug): setProcessor runs Object.assign on the processRequest
function object, which never changes what a call of processRequest
executes, so the call always throws the injection error; consequently a
request submitted after setProcessor(fn), with fn resolving "ok", ends
failed with the injection error message and never reaches completed. -/
theorem batch_setProcessor_ineffective :
    (∀ (injected : Option Batch.Processor) (r : Batch.Request),
        Batch.processRequestCall injected r
          = Except.error "processRequest function must be injected") ∧
    (mapFind "r1" (Batch.addRequest 10 5 ⟨"r1", some 1, "hello"⟩
        (Batch.setProcessor (fun _ => Except.ok "ok") ⟨[], [], none⟩)).results
      = some ⟨"r1", Batch.Status.failed, none,
          some "processRequest function must be injected", some 5, some 5⟩) ∧
    ((mapFind "r1" (Batch.addRequest 10 5 ⟨"r1", some 1, "hello"⟩
        (Batch.setProcessor (fun _ => Except.ok "ok") ⟨[], [], none⟩)).results).map
          Batch.Response.status ≠ some Batch.Status.completed) := by
  exact ⟨fun injected r => rfl, rfl, by decide⟩

/-- C9 (code bug evaluation): with both items of one batch pending and an
injected processor that rejects item x and resolves item y with "done",
the drain loop leaves the sibling y failed with the injection error
rather than completed with its result, because the injected processor is
never invoked. -/
theorem batch_failure_isolation_broken :
    ((fun r : Batch.Request =>
        if r.id = "x" then Except.error "boom" else Except.ok "done")
      (⟨"y", none, "hy"⟩ : Batch.Request) = Except.ok "done") ∧
    ((mapFind "y" (Batch.processQueue 10
        (some (fun r : Batch.Request =>
          if r.id = "x" then Except.error "boom" else Except.ok "done")) 5 2
        [⟨"x", none, "hx"⟩, ⟨"y", none, "hy"⟩]
        (mapSet "y" ⟨"y", Batch.Status.pending, none, none, none, none⟩
          (mapSet "x" ⟨"x", Batch.Status.pending, none, none, none, none⟩ [])))).map
        Batch.Response.status = some Batch.Status.failed) ∧
    ((mapFind "y" (Batch.processQueue 10
        (some (fun r : Batch.Request =>
          if r.id = "x" then Except.error "boom" else Except.ok "done")) 5 2
        [⟨"x", none, "hx"⟩, ⟨"y", none, "hy"⟩]
        (mapSet "y" ⟨"y", Batch.Status.pending, none, none, none, none⟩
          (mapSet "x" ⟨"x", Batch.Status.pending, none, none, none, none⟩ [])))).map
        Batch.Response.status ≠ some Batch.Status.completed) := by
  exact ⟨rfl, rfl, by decide⟩
